import Mathlib

/-!
Shallow embedding of the update-and-launch pipeline of
`version_control_app` (files `app_control/updater.py`,
`app_control/app_control.py`, `server/app.py`).

Python strings are modelled as `List Char` (a Python `str` is a sequence
of code points); bytes as `List Nat`; a directory as an association list
from filename to file content.  Fallible Python code (statements that can
raise) is modelled with `Option`/`Except`.
-/

/-- A Python string: a sequence of code points. -/
abbrev Str := List Char

/-- A byte payload. -/
abbrev Bytes := List Nat

/-- Python `s.split(".")`: split on the dot character; the empty string
yields `[""]`, and separators at the ends yield empty components, exactly
as in Python. -/
def splitOnDot : Str → List Str
  | [] => [[]]
  | c :: rest =>
    if c = '.' then [] :: splitOnDot rest
    else
      match splitOnDot rest with
      | [] => [[c]]
      | s :: ss => (c :: s) :: ss

/-- Python `s.replace(pat, rep)`: replace every non-overlapping occurrence
of `pat` in `s` by `rep`, scanning left to right.  (For the empty pattern
Python interleaves `rep` between characters; the program only ever calls
`replace` with the non-empty patterns `executable_prefix` and `".exe"`, so
that case is mapped to the identity here.) -/
def pyReplaceAux (pat rep : Str) : Nat → Str → Str
  | _, [] => []
  | 0, s => s
  | fuel + 1, c :: rest =>
    if pat ≠ [] ∧ pat.isPrefixOf (c :: rest) then
      rep ++ pyReplaceAux pat rep fuel ((c :: rest).drop pat.length)
    else
      c :: pyReplaceAux pat rep fuel rest

def pyReplace (pat rep s : Str) : Str :=
  pyReplaceAux pat rep s.length s

/-- Value of a decimal digit character (only meaningful on digits). -/
def charVal (c : Char) : Nat := c.toNat - 48

/-- Python `int(s)` restricted to an unsigned decimal numeral: every
character a digit, at least one digit.  (Python's `int` additionally
strips surrounding whitespace and allows `_` digit grouping; no input the
program builds from filenames or server payloads exercises those.) -/
def digitsToNat (s : Str) : Option Nat :=
  if s = [] then none
  else if s.all Char.isDigit then
    some (s.foldl (fun a c => a * 10 + charVal c) 0)
  else none

/-- Python `int(s)` on a decimal numeral with an optional sign. -/
def pyInt (s : Str) : Option Int :=
  match s with
  | [] => none
  | c :: rest =>
    if c = '-' then (digitsToNat rest).map (fun n => -(n : Int))
    else if c = '+' then (digitsToNat rest).map (fun n => (n : Int))
    else (digitsToNat (c :: rest)).map (fun n => (n : Int))

/-- A two-part version identifier, as the Python tuple `(major, minor)`
of `int`s. -/
abbrev Version := Int × Int

/-- Python tuple comparison `a > b` on two pairs of ints: lexicographic on
(major, minor). -/
def verGt (a b : Version) : Bool :=
  a.1 > b.1 || (a.1 = b.1 && a.2 > b.2)

/-- The literal `".exe"`. -/
def exeSuffix : Str := ('.' :: 'e' :: 'x' :: 'e' :: [])

/-- The literal `"temp_"` used for scratch download/decrypt paths. -/
def tempTag : Str := ('t' :: 'e' :: 'm' :: 'p' :: '_' :: [])

/-- The filter of `get_local_version` (updater.py line 18): filename
starts with the executable prefix and ends with `".exe"`. -/
def matchesApp (pfx f : Str) : Bool :=
  pfx.isPrefixOf f && exeSuffix.isSuffixOf f

/-- Function `parse_version` (updater.py lines 22-26): strip every occurrence of
the prefix and of `".exe"` from the filename, split the remainder on
`"."` into exactly two components, convert each with `int`.  Any other
shape raises `ValueError`, modelled as `none`.  Returns
`((major, minor), filename)`. -/
def parse_version (pfx f : Str) : Option (Version × Str) :=
  let versionStr := pyReplace exeSuffix [] (pyReplace pfx [] f)
  match splitOnDot versionStr with
  | [a, b] =>
    match pyInt a, pyInt b with
    | some major, some minor => some ((major, minor), f)
    | _, _ => none
  | _ => none

/-- Ordering used by Python's `versions.sort()` on the list of
`((major, minor), filename)` tuples: lexicographic, version first, then
the filename string (code-point order). -/
def strLt : Str → Str → Bool
  | [], [] => false
  | [], _ :: _ => true
  | _ :: _, [] => false
  | a :: as, b :: bs => a < b || (a = b && strLt as bs)

/-- Comparison `(version, filename) < (version, filename)` as Python
compares the tuples produced by `parse_version`. -/
def entryLt (x y : Version × Str) : Bool :=
  verGt y.1 x.1 || (x.1 = y.1 && strLt x.2 y.2)

/-- Expression `versions.sort(); versions[-1]` (updater.py lines 29-30): the maximum
of a non-empty list under `entryLt`; Python's sort is stable, so among
equal elements the last one of the original list is returned. -/
def pyListMax (v : Version × Str) : List (Version × Str) → Version × Str
  | [] => v
  | x :: xs => pyListMax (if entryLt x v then v else x) xs

/-- The list comprehension `[parse_version(f) for f in files]` (updater.py
line 28): all parses succeed, or the first malformed filename raises
`ValueError` out of the whole comprehension. -/
def parseAll (pfx : Str) : List Str → Option (List (Version × Str))
  | [] => some []
  | f :: fs =>
    match parse_version pfx f, parseAll pfx fs with
    | some v, some vs => some (v :: vs)
    | _, _ => none

/-- Function `get_local_version(apps_folder, executable_prefix)` (updater.py lines
13-30), applied to the directory listing.  Keeps the filenames that start
with the prefix and end in `".exe"`; returns `(None, None)` (here
`.ok none`) when none match; otherwise parses every matching filename — a
single malformed one raises `ValueError` out of the list comprehension,
modelled as `.error ()` — and returns the greatest
`((major, minor), filename)`. -/
def get_local_version (names : List Str) (pfx : Str) :
    Except Unit (Option (Version × Str)) :=
  match names.filter (fun f => matchesApp pfx f) with
  | [] => .ok none
  | f :: fs =>
    match parse_version pfx f, parseAll pfx fs with
    | some v, some vs => .ok (some (pyListMax v vs))
    | _, _ => .error ()

/-- A directory (the apps folder, or the ephemeral scratch folder): an
association list from filename to byte content, first binding wins. -/
abbrev Dir := List (Str × Bytes)

/-- The filenames in a directory, in listing order: `os.listdir`. -/
def dirNames (d : Dir) : List Str := d.map (fun e => e.1)

/-- Python `open(name, "wb")` followed by writing `content`: truncate/replace an
existing file in place, or create a new one. -/
def setFile : Dir → Str → Bytes → Dir
  | [], n, c => [(n, c)]
  | (m, b) :: rest, n, c =>
    if m = n then (n, c) :: rest else (m, b) :: setFile rest n c

/-- Python `os.remove(name)`. -/
def removeFile (d : Dir) (n : Str) : Dir :=
  d.filter (fun e => ¬ e.1 = n)

/-- Read a file's content, `none` if absent. -/
def readFile : Dir → Str → Option Bytes
  | [], _ => none
  | (m, b) :: rest, n => if m = n then some b else readFile rest n

/-- Append `content` to an open file (one `f.write(chunk)` in the
download loop). -/
def appendFile (d : Dir) (n : Str) (c : Bytes) : Dir :=
  setFile d n (((readFile d n).getD []) ++ c)

/-- Modelled from the spec: CipherCodec §4.4.  The program encrypts with
`cryptography.fernet.Fernet`, a library primitive that is not part of this
repository's sources; the spec describes it as authenticated symmetric
encryption whose decrypt fails with `AuthenticationFailure` whenever the
ciphertext was not produced under the same key.  It is idealised here as a
tagging scheme in which a ciphertext decrypts under `k` exactly when it is
`fernetEncrypt p k` for some payload `p`; keys are opaque naturals. -/
def fernetEncrypt (p : Bytes) (k : Nat) : Bytes := k :: p

/-- Modelled from the spec: CipherCodec §4.4, decrypt direction; fails
(`Fernet.decrypt` raises `InvalidToken`) on a wrong key or a ciphertext
not produced by `fernetEncrypt` under `k`. -/
def fernetDecrypt (c : Bytes) (k : Nat) : Except Unit Bytes :=
  match c with
  | [] => .error ()
  | k' :: p => if k' = k then .ok p else .error ()

/-- Modelled from the spec: KeyDerivation §4.3.  `generate_key` runs
PBKDF2HMAC (a `cryptography` library primitive, not in this repository)
over the constant passphrase and salt of updater.py lines 99-100; all that
matters to the pipeline is that the result is one fixed deterministic key,
abstracted as the opaque key value `0`. -/
def appKey : Nat := 0

/-- Method `update_progress_bar` (app_control.py lines 710-712):
`int((current / total) * 100)`.  Python computes the percentage with float
division and raises `ZeroDivisionError` when `total == 0`, modelled as
`.error ()`; for `total ≠ 0` the exact float rounding is immaterial to the
claims and the value is given as the integer percentage. -/
def update_progress_bar (current total : Nat) : Except Unit Nat :=
  if total = 0 then .error ()
  else .ok (current * 100 / total)

/-- The final artifact name built at updater.py line 80: the executable
prefix, the version string, then `".exe"`. -/
def downloadFilename (pfx verStr : Str) : Str := pfx ++ verStr ++ exeSuffix

/-- The scratch name built at updater.py line 82 and app_control.py line
754: `"temp_"` prepended to a filename. -/
def tempName (filename : Str) : Str := tempTag ++ filename

/-- The directory after each iteration of the chunk loop (updater.py lines
90-94): every non-empty chunk is appended to the open temp file; empty
chunks are skipped by `if chunk:`. -/
def streamStates (d : Dir) (n : Str) : List Bytes → List Dir
  | [] => []
  | c :: cs =>
    if c = [] then streamStates d n cs
    else
      let d' := appendFile d n c
      d' :: streamStates d' n cs

/-- The directory after the whole chunk loop has run. -/
def writeChunks (d : Dir) (n : Str) : List Bytes → Dir
  | [] => d
  | c :: cs => writeChunks (if c = [] then d else appendFile d n c) n cs

/-- Function `download_new_version` (updater.py lines 67-105) run to completion on
a response body delivered as `chunks`: open and fill `temp_{filename}`,
read it back, open the final path (truncating it), write the encrypted
bytes there, remove the temp file, return the filename.  The progress
callback is absent on this path (`check_for_updates` passes none). -/
def download_new_version (d : Dir) (pfx verStr : Str) (chunks : List Bytes)
    (k : Nat) : Dir × Str :=
  let filename := downloadFilename pfx verStr
  let temp := tempName filename
  let d1 := setFile d temp []
  let d2 := writeChunks d1 temp chunks
  let data := (readFile d2 temp).getD []
  let d3 := setFile d2 filename []
  let d4 := setFile d3 filename (fernetEncrypt data k)
  let d5 := removeFile d4 temp
  (d5, filename)

/-- The directory after each primitive file-system step of
`download_new_version`, in order: after `open(temp_filepath, "wb")`, after
each chunk write, after `open(final_filepath, "wb")` (which truncates the
final path), after the encrypted bytes are written, after
`os.remove(temp_filepath)`.  An execution interrupted mid-way leaves the
directory at one of these states (or at the initial one). -/
def downloadStates (d : Dir) (pfx verStr : Str) (chunks : List Bytes)
    (k : Nat) : List Dir :=
  let filename := downloadFilename pfx verStr
  let temp := tempName filename
  let d1 := setFile d temp []
  let d2 := writeChunks d1 temp chunks
  let data := (readFile d2 temp).getD []
  let d3 := setFile d2 filename []
  let d4 := setFile d3 filename (fernetEncrypt data k)
  let d5 := removeFile d4 temp
  d1 :: streamStates d1 temp chunks ++ [d3, d4, d5]

/-- Outcome of `check_for_updates`: the resulting directory, the returned
filename, and which branch ran (`downloaded = true` is the branch that
prints "Updating to the latest version...", `false` the one that prints
"No updates needed."). -/
structure UpdateResult where
  dir : Dir
  filename : Str
  downloaded : Bool

/-- Function `check_for_updates(apps_folder, executable_prefix, app_name)`
(updater.py lines 107-132).  The remote version is the pair
`((major, minor), latest_version_str)` that `get_remote_version` produced
from the server response; `chunks` is the body the server streams for the
download.  If the local version is absent or `remote_version >
local_version` (Python tuple comparison), download; after a download, the
old file is removed when its name differs from the new one.  Otherwise
the store is untouched and the existing local filename is returned. -/
def check_for_updates (d : Dir) (pfx : Str) (remote : Version × Str)
    (chunks : List Bytes) (k : Nat) : Except Unit UpdateResult :=
  match get_local_version (dirNames d) pfx with
  | .error e => .error e
  | .ok none =>
    let r := download_new_version d pfx remote.2 chunks k
    .ok ⟨r.1, r.2, true⟩
  | .ok (some (lv, lf)) =>
    if verGt remote.1 lv then
      let r := download_new_version d pfx remote.2 chunks k
      .ok ⟨if lf ≠ [] ∧ lf ≠ r.2 then removeFile r.1 lf else r.1, r.2, true⟩
    else
      .ok ⟨d, lf, false⟩

/-- Status line shown for an app by `launch_app` (the
`self.app_widgets[app_name]["label"]` texts). -/
inductive UiLabel
  | alreadyRunning
  | running
  | launchFailed
  | noVersion
  | ready
deriving DecidableEq, Repr

/-- One record appended to the error log by `log_error`. -/
inductive LogEvent
  | launchFailure
deriving DecidableEq, Repr

/-- Client state seen by `launch_app` (app_control.py lines 740-788):
whether `app_name` is in `running_processes` with `poll()` still `None`,
the apps folder, the ephemeral scratch folder
(`%TEMP%/app_control_temp`), the error log, and the status label. -/
structure LaunchState where
  runningAlive : Bool
  apps : Dir
  scratch : Dir
  errors : List LogEvent
  label : UiLabel

/-- Result of one `launch_app` call: the new state and whether a new
child process was spawned by this call. -/
structure LaunchOutcome where
  state : LaunchState
  spawnedNew : Bool

/-- Method `launch_app(app_name, executable_prefix)` (app_control.py lines
740-788).  Guard: a live prior process makes the call return after only
setting the label.  Otherwise the newest local artifact is decrypted into
`temp_{local_filename}` inside the scratch folder — `Fernet.decrypt` runs
in memory, so on `InvalidToken` nothing is ever written — and the
plaintext file is spawned; `spawnOk` stands for whether
`subprocess.Popen` succeeds.  Both failures are caught, logged via
`log_error`, and shown as a failed launch; the periodic cleanup timer
that runs after a successful spawn is outside this single call. -/
def launch_app (st : LaunchState) (pfx : Str) (k : Nat) (spawnOk : Bool) :
    Except Unit LaunchOutcome :=
  if st.runningAlive then
    .ok ⟨{ st with label := .alreadyRunning }, false⟩
  else
    match get_local_version (dirNames st.apps) pfx with
    | .error e => .error e
    | .ok none => .ok ⟨{ st with label := .noVersion }, false⟩
    | .ok (some (_, lf)) =>
      let encrypted := (readFile st.apps lf).getD []
      let tmp := tempName lf
      match fernetDecrypt encrypted k with
      | .error _ =>
        .ok ⟨{ st with errors := st.errors ++ [.launchFailure],
                       label := .launchFailed }, false⟩
      | .ok plain =>
        let st1 := { st with scratch := setFile st.scratch tmp plain }
        if spawnOk then
          .ok ⟨{ st1 with runningAlive := true, label := .running }, true⟩
        else
          .ok ⟨{ st1 with errors := st1.errors ++ [.launchFailure],
                          label := .launchFailed }, false⟩

/-- The version parsing of `get_remote_version` (updater.py lines 40-41)
and of the spec's VersionCodec: split on `"."` into exactly two
components, convert each with `int`; any other shape raises. -/
def parseVersionStr (s : Str) : Option Version :=
  match splitOnDot s with
  | [a, b] =>
    match pyInt a, pyInt b with
    | some major, some minor => some (major, minor)
    | _, _ => none
  | _ => none

/-- The decimal digit characters. -/
def digitChar (n : Nat) : Char :=
  (['0', '1', '2', '3', '4', '5', '6', '7', '8', '9']).getD n '0'

/-- Decimal numeral of a natural, most significant digit first; the fuel
argument bounds the recursion depth (`n + 1` always suffices). -/
def natToStrAux : Nat → Nat → Str
  | 0, _ => []
  | fuel + 1, n =>
    if n < 10 then [digitChar n]
    else natToStrAux fuel (n / 10) ++ [digitChar (n % 10)]

def natToStr (n : Nat) : Str := natToStrAux (n + 1) n

/-- Python `f"{n:02d}"`: the decimal numeral, zero-padded on the left to
at least two characters. -/
def pad2 (n : Nat) : Str := if n < 10 then '0' :: natToStr n else natToStr n

/-- Modelled from the spec: VersionCodec `format` (§4.1 and §3).  The
sources never rebuild a version string from a parsed tuple (filenames
reuse the server's `latest_version` string verbatim), so this inverse of
`parse` exists only in the spec: serialize as the
`"{major:02d}.{minor:02d}"`-style string. -/
def formatVersion (major minor : Nat) : Str := pad2 major ++ '.' :: pad2 minor

/-! ## Theorems -/

/-- C7: `update_progress_bar` is the progress sink the download pipeline
installs; when the server omits a content length, `total_size` is `0` and
the claim says progress reporting never performs a division by zero.  The
code computes `int((current / total) * 100)`, which raises
`ZeroDivisionError` on the very first non-empty chunk: at
`current = 1024, total = 0` the callback fails. -/
theorem update_progress_bar_div_by_zero :
    update_progress_bar 1024 0 = .error () := rfl

/-- C9: round-trip and authentication laws of the cipher (spec §4.4,
idealised `CipherCodec` standing for the library `Fernet` primitive):
decrypting an honest encryption under the same key returns the payload;
decrypting under any other key fails; decrypting any byte string that is
not an encryption under `k` (a tampered ciphertext) fails rather than
returning garbage. -/
theorem fernet_roundtrip_and_auth :
    (∀ (p : Bytes) (k : Nat), fernetDecrypt (fernetEncrypt p k) k = .ok p) ∧
    (∀ (p : Bytes) (k k' : Nat), k' ≠ k →
      fernetDecrypt (fernetEncrypt p k) k' = .error ()) ∧
    (∀ (c : Bytes) (k : Nat), (∀ p : Bytes, c ≠ fernetEncrypt p k) →
      fernetDecrypt c k = .error ()) := by
  refine ⟨fun p k => by simp [fernetEncrypt, fernetDecrypt],
          fun p k k' hk => by simp [fernetEncrypt, fernetDecrypt]; omega,
          fun c k hc => ?_⟩
  match c with
  | [] => rfl
  | k' :: p =>
    simp only [fernetDecrypt]
    rw [if_neg]
    intro he
    exact hc p (by simp [fernetEncrypt, he])

/-- Witness for C9 at concrete inputs: payload `[3, 1]`, keys `5` and `6`,
and the tampered byte string `[9, 9]` which is no encryption under `5`. -/
theorem fernet_roundtrip_and_auth_witness :
    fernetDecrypt (fernetEncrypt [3, 1] 5) 5 = .ok [3, 1] ∧
    fernetDecrypt (fernetEncrypt [3, 1] 5) 6 = .error () ∧
    fernetDecrypt [9, 9] 5 = .error () :=
  ⟨fernet_roundtrip_and_auth.1 [3, 1] 5,
   fernet_roundtrip_and_auth.2.1 [3, 1] 5 6 (by decide),
   fernet_roundtrip_and_auth.2.2 [9, 9] 5
     (fun p h => by simp [fernetEncrypt] at h)⟩

/-- C6: a launch requested while the prior child process of the same app
is still running (`poll()` returns `None`) is rejected at the guard of
`launch_app`: only the label changes to "Already running.", no
decryption happens (the scratch folder, apps folder, error log and the
recorded process are all untouched) and no new process is spawned. -/
theorem launch_rejected_when_already_running
    (st : LaunchState) (pfx : Str) (k : Nat) (spawnOk : Bool)
    (h : st.runningAlive = true) :
    launch_app st pfx k spawnOk =
      .ok ⟨{ st with label := .alreadyRunning }, false⟩ := by
  simp [launch_app, h]

/-- Witness for C6: a concrete state with a live prior process. -/
theorem launch_rejected_when_already_running_witness :
    launch_app ⟨true, [], [], [], .ready⟩ (("A_").toList) 0 true =
      .ok ⟨⟨true, [], [], [], .alreadyRunning⟩, false⟩ :=
  launch_rejected_when_already_running ⟨true, [], [], [], .ready⟩
    (("A_").toList) 0 true rfl

/-- C3: `check_for_updates` downloads exactly when the local version is
absent or the remote version is strictly greater, where the code's Python
tuple comparison `remote_version > local_version` is lexicographic on
(major, minor); when the local version is present and not exceeded it
ends up to date with the store unchanged and returns the existing local
filename. -/
theorem check_for_updates_downloads_iff
    (d : Dir) (pfx : Str) (rv : Version) (rs : Str) (chunks : List Bytes)
    (k : Nat) :
    (∀ lv lf, get_local_version (dirNames d) pfx = .ok (some (lv, lf)) →
      (check_for_updates d pfx (rv, rs) chunks k).map (fun r => r.downloaded)
          = .ok (verGt rv lv) ∧
      (verGt rv lv = false →
        check_for_updates d pfx (rv, rs) chunks k = .ok ⟨d, lf, false⟩)) ∧
    (get_local_version (dirNames d) pfx = .ok none →
      (check_for_updates d pfx (rv, rs) chunks k).map (fun r => r.downloaded)
          = .ok true) ∧
    (∀ a b : Version, verGt a b = true ↔
      (b.1 < a.1 ∨ (a.1 = b.1 ∧ b.2 < a.2))) := by
  refine ⟨fun lv lf h => ⟨?_, fun hgt => ?_⟩, fun h => ?_, fun a b => ?_⟩
  · cases hgt : verGt rv lv <;> simp [check_for_updates, h, hgt, Except.map]
  · simp [check_for_updates, h, hgt]
  · simp [check_for_updates, h, Except.map]
  · simp [verGt, Bool.or_eq_true, Bool.and_eq_true, decide_eq_true_eq]

/-- Witness for C3, the downgrade scenario of the spec: local artifact at
version (1, 0), remote reports "00.09", i.e. (0, 9); no download happens,
the store is unchanged and the existing filename is returned. -/
theorem check_for_updates_downloads_iff_witness :
    check_for_updates [(("A_01.00.exe").toList, [0, 5])] (("A_").toList)
      (((0 : Int), (9 : Int)), ("00.09").toList) [[7]] 0 =
      .ok ⟨[(("A_01.00.exe").toList, [0, 5])], ("A_01.00.exe").toList, false⟩ :=
  ((check_for_updates_downloads_iff [(("A_01.00.exe").toList, [0, 5])]
      (("A_").toList) ((0 : Int), (9 : Int)) (("00.09").toList) [[7]] 0).1
    ((1 : Int), (0 : Int)) (("A_01.00.exe").toList) (by rfl)).2 (by rfl)

/-- C10: `get_local_version` considers exactly the filenames that start
with the executable prefix and end with ".exe": removing any
non-matching filename (for instance a "temp_"-prefixed partial download
in the same folder) from the listing never changes its result, and it
returns `(None, None)` precisely when no filename matches both
conditions. -/
theorem local_version_ignores_nonmatching :
    (∀ (l1 l2 : List Str) (f pfx : Str), matchesApp pfx f = false →
      get_local_version (l1 ++ f :: l2) pfx = get_local_version (l1 ++ l2) pfx) ∧
    (∀ (names : List Str) (pfx : Str),
      get_local_version names pfx = .ok none ↔
        names.filter (fun f => matchesApp pfx f) = []) := by
  constructor
  · intro l1 l2 f pfx h
    have hfil : (l1 ++ f :: l2).filter (fun g => matchesApp pfx g) =
        (l1 ++ l2).filter (fun g => matchesApp pfx g) := by
      simp [List.filter_append, List.filter_cons, h]
    unfold get_local_version
    rw [hfil]
  · intro names pfx
    constructor
    · intro h
      cases hfil : names.filter (fun f => matchesApp pfx f) with
      | nil => rfl
      | cons g gs =>
        unfold get_local_version at h
        rw [hfil] at h
        cases hp : parse_version pfx g <;>
          cases hm : parseAll pfx gs <;>
            simp [hp, hm] at h
    · intro h
      unfold get_local_version
      rw [h]

/-- Witness for C10: a leftover "temp_"-prefixed partial download sitting
next to the installed artifact does not change the result. -/
theorem local_version_ignores_nonmatching_witness :
    get_local_version [("temp_A_00.02.exe").toList, ("A_00.01.exe").toList]
        (("A_").toList) =
      get_local_version [("A_00.01.exe").toList] (("A_").toList) :=
  local_version_ignores_nonmatching.1 [] [("A_00.01.exe").toList]
    (("temp_A_00.02.exe").toList) (("A_").toList) (by rfl)

theorem charVal_digitChar (m : Nat) (h : m < 10) :
    charVal (digitChar m) = m ∧ (digitChar m).isDigit = true := by
  interval_cases m <;> exact ⟨rfl, rfl⟩

theorem digit_not_special (c : Char) (h : c.isDigit = true) :
    c ≠ '-' ∧ c ≠ '+' ∧ c ≠ '.' := by
  refine ⟨?_, ?_, ?_⟩ <;> rintro rfl <;> exact absurd h (by decide)

theorem natToStrAux_spec (fuel : Nat) : ∀ n, n < fuel →
    natToStrAux fuel n ≠ [] ∧ (∀ c ∈ natToStrAux fuel n, c.isDigit = true) ∧
      (natToStrAux fuel n).foldl (fun a c => a * 10 + charVal c) 0 = n := by
  induction fuel with
  | zero => intro n hn; omega
  | succ fuel ih =>
    intro n hn
    by_cases h10 : n < 10
    · refine ⟨by simp [natToStrAux, h10], ?_, ?_⟩
      · intro c hc
        simp [natToStrAux, h10] at hc
        exact hc ▸ (charVal_digitChar n h10).2
      · simp [natToStrAux, h10, List.foldl, (charVal_digitChar n h10).1]
    · have hdiv : n / 10 < fuel := by omega
      obtain ⟨hne, hdig, hval⟩ := ih (n / 10) hdiv
      refine ⟨by simp [natToStrAux, h10], ?_, ?_⟩
      · intro c hc
        simp only [natToStrAux, h10, if_neg] at hc
        rcases List.mem_append.mp hc with hl | hr
        · exact hdig c hl
        · simp at hr
          exact hr ▸ (charVal_digitChar (n % 10) (by omega)).2
      · rw [show natToStrAux (fuel + 1) n =
            natToStrAux fuel (n / 10) ++ [digitChar (n % 10)] from by
          simp [natToStrAux, h10]]
        rw [List.foldl_append, hval]
        simp only [List.foldl]
        have := (charVal_digitChar (n % 10) (by omega)).1
        omega

theorem natToStr_spec (n : Nat) :
    natToStr n ≠ [] ∧ (∀ c ∈ natToStr n, c.isDigit = true) ∧
      (natToStr n).foldl (fun a c => a * 10 + charVal c) 0 = n :=
  natToStrAux_spec (n + 1) n (Nat.lt_succ_self n)

theorem digitsToNat_of_digits (s : Str) (h1 : s ≠ [])
    (h2 : ∀ c ∈ s, c.isDigit = true) :
    digitsToNat s = some (s.foldl (fun a c => a * 10 + charVal c) 0) := by
  unfold digitsToNat
  rw [if_neg h1, if_pos (List.all_eq_true.mpr h2)]

theorem pad2_spec (n : Nat) : pad2 n ≠ [] ∧
    (∀ c ∈ pad2 n, c.isDigit = true) ∧ digitsToNat (pad2 n) = some n := by
  obtain ⟨hne, hdig, hval⟩ := natToStr_spec n
  unfold pad2
  by_cases h10 : n < 10
  · rw [if_pos h10]
    refine ⟨by simp, ?_, ?_⟩
    · intro c hc
      rcases List.mem_cons.mp hc with rfl | hc
      · rfl
      · exact hdig c hc
    · rw [digitsToNat_of_digits _ (by simp)
        (fun c hc => by
          rcases List.mem_cons.mp hc with rfl | hc
          · rfl
          · exact hdig c hc)]
      simp only [List.foldl]
      rw [show charVal '0' = 0 from rfl]
      simp [hval]
  · rw [if_neg h10]
    exact ⟨hne, hdig, by rw [digitsToNat_of_digits _ hne hdig, hval]⟩

theorem pyInt_pad2 (n : Nat) : pyInt (pad2 n) = some ((n : Int)) := by
  obtain ⟨hne, hdig, hdv⟩ := pad2_spec n
  obtain ⟨c, cs, hcs⟩ := List.exists_cons_of_ne_nil hne
  obtain ⟨hm, hp, _⟩ := digit_not_special c
    (hdig c (hcs ▸ List.mem_cons_self c cs))
  rw [hcs] at hdv ⊢
  simp [pyInt, if_neg hm, if_neg hp, hdv]

theorem splitOnDot_no_dot (s : Str) (h : ∀ c ∈ s, c ≠ '.') :
    splitOnDot s = [s] := by
  induction s with
  | nil => rfl
  | cons c cs ih =>
    simp only [splitOnDot, if_neg (h c (List.mem_cons_self c cs))]
    rw [ih (fun x hx => h x (List.mem_cons_of_mem c hx))]

theorem splitOnDot_append (xs ys : Str) (h : ∀ c ∈ xs, c ≠ '.') :
    splitOnDot (xs ++ '.' :: ys) = xs :: splitOnDot ys := by
  induction xs with
  | nil => simp [splitOnDot]
  | cons c cs ih =>
    simp only [List.cons_append, splitOnDot,
      if_neg (h c (List.mem_cons_self c cs)), List.append_eq]
    rw [ih (fun x hx => h x (List.mem_cons_of_mem c hx))]

theorem parseVersionStr_format (m n : Nat) :
    parseVersionStr (formatVersion m n) = some ((m : Int), (n : Int)) := by
  obtain ⟨_, hdigm, _⟩ := pad2_spec m
  obtain ⟨_, hdign, _⟩ := pad2_spec n
  unfold parseVersionStr formatVersion
  rw [splitOnDot_append _ _
      (fun c hc => (digit_not_special c (hdigm c hc)).2.2),
    splitOnDot_no_dot _
      (fun c hc => (digit_not_special c (hdign c hc)).2.2)]
  simp [pyInt_pad2]

/-- C8: version serialization round-trips exactly.  The code's parse
(`get_remote_version`, updater.py lines 40-41) splits on "." into two
`int` components; the spec-modelled `format` produces the canonical
zero-padded `"{major:02d}.{minor:02d}"` string.  For every version
`(m, n)` with non-negative components, `parse (format (m, n)) = (m, n)`,
and every valid (canonically formatted) version string `s` satisfies
`format (parse s) = s`. -/
theorem version_format_parse_roundtrip :
    (∀ m n : Nat, parseVersionStr (formatVersion m n) =
      some ((m : Int), (n : Int))) ∧
    (∀ (s : Str) (m n : Nat), formatVersion m n = s →
      parseVersionStr s = some ((m : Int), (n : Int)) ∧
      formatVersion ((m : Int)).toNat ((n : Int)).toNat = s) :=
  ⟨fun m n => parseVersionStr_format m n,
   fun s m n h => ⟨h ▸ parseVersionStr_format m n, by simp [h]⟩⟩

/-- Witness for C8 at the spec's example string "01.00", i.e. version
(1, 0). -/
theorem version_format_parse_roundtrip_witness :
    parseVersionStr (("01.00").toList) = some (1, 0) ∧
    formatVersion ((1 : Int)).toNat ((0 : Int)).toNat = ("01.00").toList :=
  version_format_parse_roundtrip.2 (("01.00").toList) 1 0 (by rfl)

theorem verGt_true_iff (a b : Version) :
    verGt a b = true ↔ b.1 < a.1 ∨ (a.1 = b.1 ∧ b.2 < a.2) := by
  simp [verGt, Bool.or_eq_true, Bool.and_eq_true, decide_eq_true_eq]

theorem verGt_false_iff (a b : Version) :
    verGt a b = false ↔ a.1 < b.1 ∨ (a.1 = b.1 ∧ a.2 ≤ b.2) := by
  rw [← Bool.not_eq_true, verGt_true_iff]
  omega

theorem verGt_trans_false {a b c : Version} (h1 : verGt a b = false)
    (h2 : verGt b c = false) : verGt a c = false := by
  rw [verGt_false_iff] at h1 h2 ⊢
  omega

theorem entryLt_true_elim {x y : Version × Str} (h : entryLt x y = true) :
    verGt x.1 y.1 = false := by
  simp only [entryLt, Bool.or_eq_true, Bool.and_eq_true,
    decide_eq_true_eq] at h
  rw [verGt_false_iff]
  rcases h with h | ⟨h, _⟩
  · rw [verGt_true_iff] at h
    omega
  · rw [Prod.ext_iff] at h
    omega

theorem entryLt_false_elim {x y : Version × Str} (h : entryLt x y = false) :
    verGt y.1 x.1 = false := by
  simp only [entryLt, Bool.or_eq_false_iff] at h
  exact h.1

theorem pyListMax_ge_init (vs : List (Version × Str)) :
    ∀ v, verGt v.1 (pyListMax v vs).1 = false := by
  induction vs with
  | nil =>
    intro v
    rw [pyListMax, verGt_false_iff]
    omega
  | cons y ys ih =>
    intro v
    simp only [pyListMax]
    by_cases hyv : entryLt y v = true
    · rw [if_pos hyv]
      exact ih v
    · rw [if_neg hyv]
      have hyv2 : entryLt y v = false := by
        simpa using hyv
      exact verGt_trans_false (entryLt_false_elim hyv2) (ih y)

theorem pyListMax_ge (vs : List (Version × Str)) :
    ∀ v x, x ∈ vs → verGt x.1 (pyListMax v vs).1 = false := by
  induction vs with
  | nil =>
    intro v x hx
    cases hx
  | cons y ys ih =>
    intro v x hx
    simp only [pyListMax]
    rcases List.mem_cons.mp hx with heq | hx
    · rw [heq]
      by_cases hyv : entryLt y v = true
      · rw [if_pos hyv]
        exact verGt_trans_false (entryLt_true_elim hyv)
          (pyListMax_ge_init ys v)
      · rw [if_neg hyv]
        exact pyListMax_ge_init ys y
    · by_cases hyv : entryLt y v = true
      · rw [if_pos hyv]
        exact ih v x hx
      · rw [if_neg hyv]
        exact ih y x hx

theorem pyListMax_mem (vs : List (Version × Str)) :
    ∀ v, pyListMax v vs = v ∨ pyListMax v vs ∈ vs := by
  induction vs with
  | nil => intro v; exact Or.inl rfl
  | cons y ys ih =>
    intro v
    simp only [pyListMax]
    by_cases h : entryLt y v = true
    · rw [if_pos h]
      rcases ih v with h1 | h1
      · exact Or.inl h1
      · exact Or.inr (List.mem_cons_of_mem y h1)
    · rw [if_neg h]
      rcases ih y with h1 | h1
      · exact Or.inr (by rw [h1]; exact List.mem_cons_self y ys)
      · exact Or.inr (List.mem_cons_of_mem y h1)

theorem parseAll_none_of_malformed (pfx : Str) (fs : List Str) (f : Str)
    (hf : f ∈ fs) (hp : parse_version pfx f = none) :
    parseAll pfx fs = none := by
  induction fs with
  | nil => cases hf
  | cons g gs ih =>
    rcases List.mem_cons.mp hf with rfl | hf
    · simp [parseAll, hp]
    · cases hg : parse_version pfx g <;> simp [parseAll, hg, ih hf]

theorem parseAll_total (pfx : Str) (fs : List Str)
    (h : ∀ f ∈ fs, parse_version pfx f ≠ none) :
    ∃ vs, parseAll pfx fs = some vs := by
  induction fs with
  | nil => exact ⟨[], rfl⟩
  | cons g gs ih =>
    obtain ⟨vs, hvs⟩ := ih (fun f hf => h f (List.mem_cons_of_mem g hf))
    cases hg : parse_version pfx g with
    | none => exact absurd hg (h g (List.mem_cons_self g gs))
    | some v => exact ⟨v :: vs, by simp [parseAll, hg, hvs]⟩

theorem parseAll_mem (pfx : Str) (fs : List Str)
    (vs : List (Version × Str)) (h : parseAll pfx fs = some vs) :
    ∀ f ∈ fs, ∀ x, parse_version pfx f = some x → x ∈ vs := by
  induction fs generalizing vs with
  | nil => intro f hf; cases hf
  | cons g gs ih =>
    intro f hf x hx
    cases hg : parse_version pfx g with
    | none => simp [parseAll, hg] at h
    | some v =>
      cases hgs : parseAll pfx gs with
      | none => simp [parseAll, hg, hgs] at h
      | some ws =>
        simp [parseAll, hg, hgs] at h
        subst h
        rcases List.mem_cons.mp hf with rfl | hf
        · rw [hg] at hx
          exact (Option.some.inj hx) ▸ List.mem_cons_self v ws
        · exact List.mem_cons_of_mem v (ih ws hgs f hf x hx)

theorem parseAll_sources (pfx : Str) (fs : List Str)
    (vs : List (Version × Str)) (h : parseAll pfx fs = some vs) :
    ∀ x ∈ vs, ∃ f ∈ fs, parse_version pfx f = some x := by
  induction fs generalizing vs with
  | nil =>
    simp only [parseAll, Option.some.injEq] at h
    subst h
    intro x hx
    cases hx
  | cons g gs ih =>
    intro x hx
    cases hg : parse_version pfx g with
    | none => simp [parseAll, hg] at h
    | some v =>
      cases hgs : parseAll pfx gs with
      | none => simp [parseAll, hg, hgs] at h
      | some ws =>
        simp [parseAll, hg, hgs] at h
        subst h
        rcases List.mem_cons.mp hx with rfl | hx
        · exact ⟨g, List.mem_cons_self g gs, hg⟩
        · obtain ⟨f, hf, hfx⟩ := ih ws hgs x hx
          exact ⟨f, List.mem_cons_of_mem g hf, hfx⟩

/-- C4 counterexample: a directory whose only matching filename is
"A_1.exe" (prefix "A_"), whose version part "1" has no separator.  The
claim says `get_local_version` skips the malformed name without failing
and returns nothing; the code instead raises `ValueError` out of
`parse_version` (tuple unpacking of a one-element split), modelled as
`.error ()`, so the call does not return `(None, None)`. -/
theorem local_version_malformed_cex :
    get_local_version [("A_1.exe").toList] (("A_").toList) = .error () ∧
    ¬ get_local_version [("A_1.exe").toList] (("A_").toList) = .ok none := by
  refine ⟨rfl, fun h => ?_⟩
  rw [show get_local_version [("A_1.exe").toList] (("A_").toList) =
      .error () from rfl] at h
  exact Except.noConfusion h

/-- C4 (amended): if ANY matching filename has a malformed version part,
`get_local_version` fails (the `ValueError` from `parse_version`
propagates out of the list comprehension) instead of skipping it; only
when every matching filename is well-formed does it return the record
with the greatest version among them (and it returns nothing when no
filename matches, per the separate match-filter theorem). -/
theorem local_version_malformed_raises (names : List Str) (pfx : Str) :
    (∀ f, f ∈ names.filter (fun g => matchesApp pfx g) →
      parse_version pfx f = none →
      get_local_version names pfx = .error ()) ∧
    ((∀ f ∈ names.filter (fun g => matchesApp pfx g),
        parse_version pfx f ≠ none) →
      ¬ names.filter (fun g => matchesApp pfx g) = [] →
      ∃ r, get_local_version names pfx = .ok (some r) ∧
        (∃ f ∈ names.filter (fun g => matchesApp pfx g),
          parse_version pfx f = some r) ∧
        (∀ f x, f ∈ names.filter (fun g => matchesApp pfx g) →
          parse_version pfx f = some x → verGt x.1 r.1 = false)) := by
  constructor
  · intro f hf hp
    cases hfil : names.filter (fun g => matchesApp pfx g) with
    | nil => rw [hfil] at hf; cases hf
    | cons g gs =>
      unfold get_local_version
      rw [hfil]
      rw [hfil] at hf
      rcases List.mem_cons.mp hf with heq | hf
      · rw [← heq]
        simp [hp]
      · have hnone := parseAll_none_of_malformed pfx gs f hf hp
        cases hg : parse_version pfx g <;> simp [hg, hnone]
  · intro hall hne
    cases hfil : names.filter (fun g => matchesApp pfx g) with
    | nil => exact absurd hfil hne
    | cons g gs =>
      rw [hfil] at hall
      cases hg : parse_version pfx g with
      | none => exact absurd hg (hall g (List.mem_cons_self g gs))
      | some v =>
        obtain ⟨vs, hvs⟩ := parseAll_total pfx gs
          (fun f hf => hall f (List.mem_cons_of_mem g hf))
        refine ⟨pyListMax v vs, ?_, ?_, ?_⟩
        · unfold get_local_version
          rw [hfil]
          simp [hg, hvs]
        · rcases pyListMax_mem vs v with hm | hm
          · exact ⟨g, List.mem_cons_self g gs, by rw [hg, hm]⟩
          · obtain ⟨f, hf, hfx⟩ := parseAll_sources pfx gs vs hvs _ hm
            exact ⟨f, List.mem_cons_of_mem g hf, hfx⟩
        · intro f x hf hx
          rcases List.mem_cons.mp hf with heq | hf
          · rw [heq] at hx
            rw [hx] at hg
            have : x = v := Option.some.inj hg
            rw [this]
            exact pyListMax_ge_init vs v
          · exact pyListMax_ge vs v x (parseAll_mem pfx gs vs hvs f hf x hx)

/-- Witness for the amended C4 at the malformed directory. -/
theorem local_version_malformed_raises_witness :
    get_local_version [("A_1.exe").toList] (("A_").toList) = .error () :=
  (local_version_malformed_raises [("A_1.exe").toList] (("A_").toList)).1
    (("A_1.exe").toList) (by decide) (by rfl)

theorem dirNames_setFile (d : Dir) (n : Str) (c : Bytes) :
    dirNames (setFile d n c) =
      if n ∈ dirNames d then dirNames d else dirNames d ++ [n] := by
  induction d with
  | nil => simp [setFile, dirNames]
  | cons e rest ih =>
    obtain ⟨m, b⟩ := e
    by_cases hmn : m = n
    · subst hmn
      simp [setFile, dirNames]
    · simp only [setFile, if_neg hmn, dirNames, List.map_cons] at ih ⊢
      rw [ih]
      by_cases hmem : n ∈ rest.map (fun e => e.1)
      · simp [hmem, Ne.symm hmn]
      · simp [hmem, Ne.symm hmn]

theorem filter_dirNames_setFile (d : Dir) (n : Str) (c : Bytes) (pfx : Str)
    (h : matchesApp pfx n = false) :
    (dirNames (setFile d n c)).filter (fun f => matchesApp pfx f) =
      (dirNames d).filter (fun f => matchesApp pfx f) := by
  rw [dirNames_setFile]
  split
  · rfl
  · rw [List.filter_append]
    simp [h]

theorem glv_eq_of_filter_eq (n1 n2 : List Str) (pfx : Str)
    (h : n1.filter (fun f => matchesApp pfx f) =
      n2.filter (fun f => matchesApp pfx f)) :
    get_local_version n1 pfx = get_local_version n2 pfx := by
  unfold get_local_version
  rw [h]

theorem readFile_setFile_self (d : Dir) (n : Str) (c : Bytes) :
    readFile (setFile d n c) n = some c := by
  induction d with
  | nil => simp [setFile, readFile]
  | cons e rest ih =>
    obtain ⟨m, b⟩ := e
    by_cases hmn : m = n
    · subst hmn
      simp [setFile, readFile]
    · simp [setFile, readFile, hmn, ih]

theorem readFile_setFile_ne (d : Dir) (n m : Str) (c : Bytes)
    (hm : ¬ n = m) :
    readFile (setFile d n c) m = readFile d m := by
  induction d with
  | nil => simp [setFile, readFile, hm]
  | cons e rest ih =>
    obtain ⟨p, b⟩ := e
    by_cases hpn : p = n
    · subst hpn
      simp [setFile, readFile, hm]
    · simp [setFile, readFile, hpn, ih]

theorem mem_dirNames_setFile (d : Dir) (n : Str) (c : Bytes) :
    n ∈ dirNames (setFile d n c) := by
  rw [dirNames_setFile]
  split
  · assumption
  · exact List.mem_append_right _ (List.mem_cons_self n [])

theorem tempName_ne (f : Str) : ¬ tempName f = f := by
  intro h
  have hl := congrArg List.length h
  simp [tempName, tempTag] at hl
  omega

theorem streamStates_pred (n : Str) (P : Dir → Prop)
    (hstep : ∀ d c, P d → P (appendFile d n c)) :
    ∀ (cs : List Bytes) (d : Dir), P d → ∀ s ∈ streamStates d n cs, P s := by
  intro cs
  induction cs with
  | nil => intro d _ s hs; cases hs
  | cons c cs ih =>
    intro d hd s hs
    by_cases hc : c = []
    · rw [streamStates, if_pos hc] at hs
      exact ih d hd s hs
    · rw [streamStates, if_neg hc] at hs
      rcases List.mem_cons.mp hs with heq | hs
      · rw [heq]
        exact hstep d c hd
      · exact ih (appendFile d n c) (hstep d c hd) s hs

/-- C1 (amended): the download is staged in a `"temp_"`-prefixed file,
and as long as only that temp file has been touched (temp-file creation
and every chunk write), `get_local_version` is unchanged — it returns
whatever it returned before the update (the old record, or nothing).  But
there is no atomic rename: the encrypt step opens the final artifact name
directly for writing, so the trace of `download_new_version` contains a
state in which the final name exists with truncated content `[]`, which
is not the encryption of anything. -/
theorem download_write_not_atomic (d : Dir) (pfx verStr : Str)
    (chunks : List Bytes) (k : Nat)
    (h : matchesApp pfx (tempName (downloadFilename pfx verStr)) = false) :
    (∀ s ∈ setFile d (tempName (downloadFilename pfx verStr)) [] ::
        streamStates (setFile d (tempName (downloadFilename pfx verStr)) [])
          (tempName (downloadFilename pfx verStr)) chunks,
      get_local_version (dirNames s) pfx =
        get_local_version (dirNames d) pfx) ∧
    (∃ s ∈ downloadStates d pfx verStr chunks k,
      readFile s (downloadFilename pfx verStr) = some [] ∧
      ∀ (p : Bytes) (k2 : Nat), ¬ fernetEncrypt p k2 = []) := by
  constructor
  · intro s hs
    have base : (dirNames (setFile d (tempName (downloadFilename pfx verStr))
        [])).filter (fun f => matchesApp pfx f) =
        (dirNames d).filter (fun f => matchesApp pfx f) :=
      filter_dirNames_setFile d _ [] pfx h
    have step : ∀ t c,
        ((dirNames t).filter (fun f => matchesApp pfx f) =
          (dirNames d).filter (fun f => matchesApp pfx f)) →
        ((dirNames (appendFile t (tempName (downloadFilename pfx verStr))
            c)).filter (fun f => matchesApp pfx f) =
          (dirNames d).filter (fun f => matchesApp pfx f)) := by
      intro t c ht
      rw [appendFile, filter_dirNames_setFile _ _ _ _ h]
      exact ht
    rcases List.mem_cons.mp hs with heq | hs
    · rw [heq]
      exact glv_eq_of_filter_eq _ _ _ base
    · exact glv_eq_of_filter_eq _ _ _
        (streamStates_pred _ _ step chunks _ base s hs)
  · refine ⟨setFile (writeChunks
        (setFile d (tempName (downloadFilename pfx verStr)) [])
        (tempName (downloadFilename pfx verStr)) chunks)
        (downloadFilename pfx verStr) [], ?_, ?_, ?_⟩
    · simp only [downloadStates]
      exact List.mem_cons_of_mem _
        (List.mem_append_right _ (List.mem_cons_self _ _))
    · exact readFile_setFile_self _ _ _
    · intro p k2 hpk
      exact List.cons_ne_nil k2 p hpk

/-- Witness for the amended C1: crash just after the temp file was
created; the listing result is exactly the pre-download one. -/
theorem download_write_not_atomic_witness :
    get_local_version (dirNames (setFile [(("A_00.01.exe").toList, [0, 9])]
        (tempName (downloadFilename (("A_").toList) (("00.02").toList))) []))
      (("A_").toList) =
    get_local_version (dirNames [(("A_00.01.exe").toList, [0, 9])])
      (("A_").toList) :=
  (download_write_not_atomic [(("A_00.01.exe").toList, [0, 9])]
      (("A_").toList) (("00.02").toList) [[7]] 0 (by rfl)).1
    (setFile [(("A_00.01.exe").toList, [0, 9])]
      (tempName (downloadFilename (("A_").toList) (("00.02").toList))) [])
    (List.mem_cons_self _ _)

/-- C1 counterexample: old artifact "A_00.01.exe" installed, downloading
"00.02" with one chunk.  The third state of the download trace — right
after the encrypt step executed `open(final_filepath, "wb")` and before
the write — is reachable by an interruption; there `get_local_version`
returns the brand-new name "A_00.02.exe" with truncated content `[]`: a
truncated record under the new name, neither the old record nor nothing,
refuting the claimed atomic-rename discipline. -/
theorem download_write_not_atomic_cex :
    (downloadStates [(("A_00.01.exe").toList, [0, 9])] (("A_").toList)
        (("00.02").toList) [[7]] 0).getD 2 [] ∈
      downloadStates [(("A_00.01.exe").toList, [0, 9])] (("A_").toList)
        (("00.02").toList) [[7]] 0 ∧
    get_local_version (dirNames ((downloadStates
        [(("A_00.01.exe").toList, [0, 9])] (("A_").toList)
        (("00.02").toList) [[7]] 0).getD 2 [])) (("A_").toList) =
      .ok (some (((0 : Int), (2 : Int)), ("A_00.02.exe").toList)) ∧
    readFile ((downloadStates [(("A_00.01.exe").toList, [0, 9])]
        (("A_").toList) (("00.02").toList) [[7]] 0).getD 2 [])
        (("A_00.02.exe").toList) = some [] ∧
    get_local_version (dirNames [(("A_00.01.exe").toList, [0, 9])])
      (("A_").toList) =
      .ok (some (((0 : Int), (1 : Int)), ("A_00.01.exe").toList)) :=
  ⟨by decide, by rfl, by rfl, by rfl⟩

/-- C2 (amended): if the download is interrupted mid-stream (at temp-file
creation or after any chunk), no artifact appears under the final name
(its content is whatever it was before), the previously installed
artifact is intact and `get_local_version` still returns it — but the
partially downloaded `temp_{filename}` is NOT cleaned up on that exit
path: it is present in the store directory at every such state (invisible
to `get_local_version`, which its name does not match). -/
theorem download_interrupt_leaves_temp (d : Dir) (pfx verStr : Str)
    (chunks : List Bytes)
    (h : matchesApp pfx (tempName (downloadFilename pfx verStr)) = false) :
    ∀ s ∈ setFile d (tempName (downloadFilename pfx verStr)) [] ::
        streamStates (setFile d (tempName (downloadFilename pfx verStr)) [])
          (tempName (downloadFilename pfx verStr)) chunks,
      readFile s (downloadFilename pfx verStr) =
          readFile d (downloadFilename pfx verStr) ∧
        get_local_version (dirNames s) pfx =
          get_local_version (dirNames d) pfx ∧
        tempName (downloadFilename pfx verStr) ∈ dirNames s := by
  intro s hs
  have hne : ¬ tempName (downloadFilename pfx verStr) =
      downloadFilename pfx verStr := tempName_ne _
  have base : readFile (setFile d (tempName (downloadFilename pfx verStr)) [])
        (downloadFilename pfx verStr) =
          readFile d (downloadFilename pfx verStr) ∧
      (dirNames (setFile d (tempName (downloadFilename pfx verStr))
          [])).filter (fun f => matchesApp pfx f) =
        (dirNames d).filter (fun f => matchesApp pfx f) ∧
      tempName (downloadFilename pfx verStr) ∈
        dirNames (setFile d (tempName (downloadFilename pfx verStr)) []) :=
    ⟨readFile_setFile_ne _ _ _ _ hne, filter_dirNames_setFile d _ [] pfx h,
     mem_dirNames_setFile _ _ _⟩
  have step : ∀ t c,
      (readFile t (downloadFilename pfx verStr) =
          readFile d (downloadFilename pfx verStr) ∧
        (dirNames t).filter (fun f => matchesApp pfx f) =
          (dirNames d).filter (fun f => matchesApp pfx f) ∧
        tempName (downloadFilename pfx verStr) ∈ dirNames t) →
      (readFile (appendFile t (tempName (downloadFilename pfx verStr)) c)
          (downloadFilename pfx verStr) =
          readFile d (downloadFilename pfx verStr) ∧
        (dirNames (appendFile t (tempName (downloadFilename pfx verStr))
            c)).filter (fun f => matchesApp pfx f) =
          (dirNames d).filter (fun f => matchesApp pfx f) ∧
        tempName (downloadFilename pfx verStr) ∈
          dirNames (appendFile t (tempName (downloadFilename pfx verStr)) c)) := by
    intro t c ht
    refine ⟨?_, ?_, ?_⟩
    · rw [appendFile, readFile_setFile_ne _ _ _ _ hne]
      exact ht.1
    · rw [appendFile, filter_dirNames_setFile _ _ _ _ h]
      exact ht.2.1
    · exact mem_dirNames_setFile _ _ _
  rcases List.mem_cons.mp hs with heq | hs
  · rw [heq]
    exact ⟨base.1, glv_eq_of_filter_eq _ _ _ base.2.1, base.2.2⟩
  · have hP := streamStates_pred _ _ step chunks _ base s hs
    exact ⟨hP.1, glv_eq_of_filter_eq _ _ _ hP.2.1, hP.2.2⟩

/-- Witness for the amended C2: interruption right after the temp file
was opened. -/
theorem download_interrupt_leaves_temp_witness :
    readFile (setFile [(("A_00.01.exe").toList, [0, 9])]
        (tempName (downloadFilename (("A_").toList) (("00.02").toList))) [])
        (downloadFilename (("A_").toList) (("00.02").toList)) =
      readFile [(("A_00.01.exe").toList, [0, 9])]
        (downloadFilename (("A_").toList) (("00.02").toList)) ∧
    get_local_version (dirNames (setFile [(("A_00.01.exe").toList, [0, 9])]
        (tempName (downloadFilename (("A_").toList) (("00.02").toList))) []))
        (("A_").toList) =
      get_local_version (dirNames [(("A_00.01.exe").toList, [0, 9])])
        (("A_").toList) ∧
    tempName (downloadFilename (("A_").toList) (("00.02").toList)) ∈
      dirNames (setFile [(("A_00.01.exe").toList, [0, 9])]
        (tempName (downloadFilename (("A_").toList) (("00.02").toList))) []) :=
  download_interrupt_leaves_temp [(("A_00.01.exe").toList, [0, 9])]
    (("A_").toList) (("00.02").toList) [[7], [8]] (by rfl)
    (setFile [(("A_00.01.exe").toList, [0, 9])]
      (tempName (downloadFilename (("A_").toList) (("00.02").toList))) [])
    (List.mem_cons_self _ _)

/-- C2 counterexample: the download of "00.02" delivered as two chunks is
interrupted at 50% (after the first chunk).  That state is in the
download trace; the old artifact is intact and still returned, nothing
exists under the final name — but the half-written "temp_A_00.02.exe"
remains in the store directory, refuting "no partial files remain in the
store / buffers cleaned up on every exit path". -/
theorem download_interrupt_leaves_temp_cex :
    (downloadStates [(("A_00.01.exe").toList, [0, 9])] (("A_").toList)
        (("00.02").toList) [[7], [8]] 0).getD 1 [] ∈
      downloadStates [(("A_00.01.exe").toList, [0, 9])] (("A_").toList)
        (("00.02").toList) [[7], [8]] 0 ∧
    readFile ((downloadStates [(("A_00.01.exe").toList, [0, 9])]
        (("A_").toList) (("00.02").toList) [[7], [8]] 0).getD 1 [])
        (("temp_A_00.02.exe").toList) = some [7] ∧
    readFile ((downloadStates [(("A_00.01.exe").toList, [0, 9])]
        (("A_").toList) (("00.02").toList) [[7], [8]] 0).getD 1 [])
        (("A_00.02.exe").toList) = none ∧
    get_local_version (dirNames ((downloadStates
        [(("A_00.01.exe").toList, [0, 9])] (("A_").toList)
        (("00.02").toList) [[7], [8]] 0).getD 1 [])) (("A_").toList) =
      .ok (some (((0 : Int), (1 : Int)), ("A_00.01.exe").toList)) :=
  ⟨by decide, by rfl, by rfl, by rfl⟩

/-- C5 (amended): when decryption of the stored artifact fails
(`InvalidToken` — wrong key or corrupted ciphertext), `launch_app` logs
the error, shows the launch as failed, and leaves no ephemeral file
behind, because `Fernet.decrypt` runs in memory and the ephemeral file is
only written after a successful decrypt.  When the decrypt succeeds but
spawning the child process fails, the error is likewise logged and the
launch fails — but the already-written decrypted ephemeral file is left
on disk: the `except` handler does not remove it. -/
theorem launch_failure_cleanup (st : LaunchState) (pfx : Str) (k : Nat)
    (v : Version) (lf : Str)
    (hrun : st.runningAlive = false)
    (hloc : get_local_version (dirNames st.apps) pfx = .ok (some (v, lf))) :
    (fernetDecrypt ((readFile st.apps lf).getD []) k = .error () →
      ∀ spawnOk, launch_app st pfx k spawnOk =
        .ok ⟨{ st with errors := st.errors ++ [.launchFailure],
                       label := .launchFailed }, false⟩) ∧
    (∀ plain, fernetDecrypt ((readFile st.apps lf).getD []) k = .ok plain →
      launch_app st pfx k false =
        .ok ⟨{ st with scratch := setFile st.scratch (tempName lf) plain,
                       errors := st.errors ++ [.launchFailure],
                       label := .launchFailed }, false⟩ ∧
      readFile (setFile st.scratch (tempName lf) plain) (tempName lf) =
        some plain) := by
  constructor
  · intro hdec spawnOk
    simp [launch_app, hrun, hloc, hdec]
  · intro plain hdec
    exact ⟨by simp [launch_app, hrun, hloc, hdec],
      readFile_setFile_self _ _ _⟩

/-- Witness for the amended C5: ciphertext stored under key 1, decrypt
attempted with key 0 fails; error logged, label failed, scratch folder
untouched. -/
theorem launch_failure_cleanup_witness :
    launch_app ⟨false, [(("A_00.01.exe").toList, fernetEncrypt [42] 1)],
        [], [], .ready⟩ (("A_").toList) 0 true =
      .ok ⟨⟨false, [(("A_00.01.exe").toList, fernetEncrypt [42] 1)], [],
        [.launchFailure], .launchFailed⟩, false⟩ :=
  (launch_failure_cleanup
      ⟨false, [(("A_00.01.exe").toList, fernetEncrypt [42] 1)], [], [],
        .ready⟩
      (("A_").toList) 0 ((0 : Int), (1 : Int)) (("A_00.01.exe").toList)
      rfl (by rfl)).1 (by rfl) true

/-- C5 counterexample: decrypt succeeds ([42] stored under key 0) but
`subprocess.Popen` fails.  The claim says no ephemeral decrypted file is
left on disk afterward; in the resulting state the scratch folder still
holds "temp_A_00.01.exe" with the decrypted plaintext [42]. -/
theorem launch_spawn_failure_leaves_file_cex :
    launch_app ⟨false, [(("A_00.01.exe").toList, fernetEncrypt [42] 0)],
        [], [], .ready⟩ (("A_").toList) 0 false =
      .ok ⟨⟨false, [(("A_00.01.exe").toList, fernetEncrypt [42] 0)],
        [(("temp_A_00.01.exe").toList, [42])], [.launchFailure],
        .launchFailed⟩, false⟩ ∧
    readFile [(("temp_A_00.01.exe").toList, [42])]
      (("temp_A_00.01.exe").toList) = some [42] :=
  ⟨rfl, rfl⟩
